import Mathlib

/-!
Shallow embedding of the incremental SAT front-end implemented in
src/sat/sat_solver/inc_sat_solver.cpp (class inc_sat_solver).

The class keeps a growing stack of asserted formulas (m_fmls), guard
assumptions (m_asmsf), scope checkpoints (m_fmls_lim, m_asms_lim,
m_fmls_head_lim), a translation frontier (m_fmls_head), caches for the last
model and unsat core, and a scoped atom-to-boolean-variable map.  The
preprocessing pipeline (tactics), the goal2sat translator and the underlying
SAT engine are external collaborators; they are modelled as oracle inputs
(PipeOutcome / EngineResult) so that every bookkeeping step of the C++ code
itself is explicit and executable here.
-/

namespace IncSat

/-- Modelled from the spec: the three-valued result type lbool used by the
solver API; the constructor l_undet stands for the source's undetermined
(unknown) value. -/
inductive Lbool where
  | l_true
  | l_false
  | l_undet
deriving DecidableEq

/-- Negation on Lbool, mirroring operator~ on lbool (undef maps to undef). -/
def Lbool.neg : Lbool → Lbool
  | .l_true => .l_false
  | .l_false => .l_true
  | .l_undet => .l_undet

/-- Modelled from the spec: a low-level literal (sat::literal) is a boolean
variable together with a polarity; sign = true means the negated phase. -/
structure Lit where
  var : Nat
  sign : Bool
deriving DecidableEq

instance : Inhabited Lit := ⟨⟨0, false⟩⟩

/-- The packed index of a literal, mirroring sat::literal::index()
(two times the variable plus the sign bit); it is injective. -/
def Lit.index (l : Lit) : Nat := 2 * l.var + (if l.sign then 1 else 0)

/-- Modelled from the spec: the fragment of the term language (ast_manager
exprs) that inc_sat_solver.cpp manipulates directly: uninterpreted boolean
constants, uninterpreted bit-vector constants of a given width, negation,
implication, equality and bit-vector numerals. -/
inductive Expr where
  | boolConst (name : Nat)
  | bvConst (name : Nat) (width : Nat)
  | not (e : Expr)
  | implies (a b : Expr)
  | eq (a b : Expr)
  | bvNumeral (val : Nat) (width : Nat)
deriving DecidableEq

instance : Inhabited Expr := ⟨.boolConst 0⟩

/-- Modelled from the spec: the scope-aware atom-to-boolean-variable map
(atom2bool_var of goal2sat.h, not part of src/): a list of entries, newest
first, plus a stack of entry counts snapshotted at each push. -/
structure Atom2BoolVar where
  entries : List (Expr × Nat)
  lims : List Nat
deriving DecidableEq

/-- Lookup of an atom in the variable map, mirroring
atom2bool_var::to_bool_var; returns none for null_bool_var. -/
def Atom2BoolVar.to_bool_var (e : Expr) : List (Expr × Nat) → Option Nat
  | [] => none
  | (k, v) :: rest => if k = e then some v else Atom2BoolVar.to_bool_var e rest

/-- Modelled from the spec: push on the variable map records the current
entry count so that pop can retract the atoms translated in that scope. -/
def Atom2BoolVar.push (m : Atom2BoolVar) : Atom2BoolVar :=
  { m with lims := m.entries.length :: m.lims }

/-- Pop one scope level from the variable map. -/
def Atom2BoolVar.popOne (m : Atom2BoolVar) : Atom2BoolVar :=
  { entries := m.entries.drop (m.entries.length - m.lims.headD 0),
    lims := m.lims.tail }

/-- Pop n scope levels from the variable map. -/
def Atom2BoolVar.popN : Nat → Atom2BoolVar → Atom2BoolVar
  | 0, m => m
  | n + 1, m => Atom2BoolVar.popN n m.popOne

/-- Modelled from the spec: the outcome of running the preprocessing
pipeline (m_preprocess, an external tactic chain) followed by goal2sat on
one goal.  tacticFail models a tactic_exception; badSubgoals models a
residual subgoal count different from one; reduced models the single-goal
case, carrying the atom-to-variable entries added by goal2sat, the
dependency map (dep2asm) it filled in, and the interpreted atoms it could
not translate. -/
inductive PipeOutcome where
  | tacticFail
  | badSubgoals (n : Nat)
  | reduced (newAtoms : List (Expr × Nat)) (dep2asm : List (Expr × Lit))
      (interp : List Expr)
deriving DecidableEq

/-- Modelled from the spec: the pipeline as a whole is abstracted as a
function from the goal contents (each formula with its optional dependency
leaf) to an outcome. -/
abbrev PipeOracle := List (Expr × Option Expr) → PipeOutcome

/-- Modelled from the spec: the answer of one m_solver.check call of the
external SAT engine: a status, the engine core (consulted on l_false) and
the engine model as an assignment indexed by boolean variable. -/
structure EngineResult where
  res : Lbool
  core : List Lit
  model : List Lbool
deriving DecidableEq

/-- The bookkeeping state of one inc_sat_solver instance.  m_bb_rewriter is
modelled by its scope count (some k) or absence (none, after a pipeline
failure); m_preprocess by a presence flag; the model cache by a list of
declaration-to-value pairs. -/
structure SolverState where
  m_fmls : List Expr
  m_asmsf : List Expr
  m_fmls_lim : List Nat
  m_asms_lim : List Nat
  m_fmls_head_lim : List Nat
  m_fmls_head : Nat
  m_core : List Expr
  m_model : Option (List (Expr × Bool))
  m_map : Atom2BoolVar
  m_bb_rewriter : Option Nat
  m_preprocess : Bool
  m_num_scopes : Nat
  m_asms : List Lit
  m_weights : List Rat
  m_unknown : String
deriving DecidableEq

/-- The state built by the inc_sat_solver constructor: empty sequences,
frontier zero, scope depth zero, a fresh bit-blaster and pipeline installed
by init_preprocess, and the default reason string. -/
def initState : SolverState :=
  { m_fmls := []
    m_asmsf := []
    m_fmls_lim := []
    m_asms_lim := []
    m_fmls_head_lim := []
    m_fmls_head := 0
    m_core := []
    m_model := none
    m_map := ⟨[], []⟩
    m_bb_rewriter := some 0
    m_preprocess := true
    m_num_scopes := 0
    m_asms := []
    m_weights := []
    m_unknown := "no reason given" }

/-- Mirrors inc_sat_solver::reason_unknown, which returns m_unknown. -/
def reason_unknown (s : SolverState) : String := s.m_unknown

/-- Mirrors inc_sat_solver::get_scope_level, which returns m_num_scopes. -/
def get_scope_level (s : SolverState) : Nat := s.m_num_scopes

/-- Mirrors the one-argument inc_sat_solver::assert_expr(t): the formula is
appended to m_fmls (translation is deferred to the frontier machinery). -/
def assert_expr (t : Expr) (s : SolverState) : SolverState :=
  { s with m_fmls := s.m_fmls ++ [t] }

/-- Mirrors the two-argument inc_sat_solver::assert_expr(t, a): with a guard
a, the guard is appended to m_asmsf and (implies a t) is asserted; without
one this is the plain assert. -/
def assert_expr2 (t : Expr) (a : Option Expr) (s : SolverState) : SolverState :=
  match a with
  | some g => assert_expr (.implies g t) { s with m_asmsf := s.m_asmsf ++ [g] }
  | none => assert_expr t s

/-- Mirrors inc_sat_solver::init_preprocess: the pipeline is rebuilt, a
bit-blast rewriter is allocated if absent, and its scope count is pushed up
until it matches m_num_scopes. -/
def init_preprocess (s : SolverState) : SolverState :=
  { s with
    m_preprocess := true
    m_bb_rewriter := some (match s.m_bb_rewriter with
      | none => s.m_num_scopes
      | some k => max k s.m_num_scopes) }

/-- Rendering of one expr, standing in for ast pretty printing in the
interpreted-atoms diagnostic message. -/
def exprStr : Expr → String
  | .boolConst n => "b" ++ toString n
  | .bvConst n w => "v" ++ toString n ++ ":" ++ toString w
  | .not e => "(not " ++ exprStr e ++ ")"
  | .implies a b => "(=> " ++ exprStr a ++ " " ++ exprStr b ++ ")"
  | .eq a b => "(= " ++ exprStr a ++ " " ++ exprStr b ++ ")"
  | .bvNumeral v w => "#" ++ toString v ++ ":" ++ toString w

/-- Rendering of a list of exprs, as streamed into the diagnostic. -/
def exprListStr : List Expr → String
  | [] => ""
  | [e] => exprStr e
  | e :: rest => exprStr e ++ " " ++ exprListStr rest

/-- The diagnostic message built in internalize_goal when goal2sat reports
interpreted atoms. -/
def interpAtomsMsg (atoms : List Expr) : String :=
  "interpreted atoms sent to SAT solver " ++ exprListStr atoms

/-- Mirrors inc_sat_solver::internalize_goal: the converter references are
reset and init_preprocess runs; a tactic exception discards the pipeline and
the bit-blast rewriter and yields l_undet (without touching m_unknown); a
subgoal count other than one yields l_undet (without touching m_unknown);
otherwise goal2sat extends the variable map and fills dep2asm, and residual
interpreted atoms set the reason string and yield l_undet. -/
def internalize_goal (oc : PipeOutcome) (s : SolverState) :
    Lbool × List (Expr × Lit) × SolverState :=
  let s0 := init_preprocess s
  match oc with
  | .tacticFail =>
      (.l_undet, [], { s0 with m_preprocess := false, m_bb_rewriter := none })
  | .badSubgoals _ => (.l_undet, [], s0)
  | .reduced newAtoms dep interp =>
      let s1 := { s0 with
        m_map := { s0.m_map with entries := newAtoms ++ s0.m_map.entries } }
      if interp.isEmpty then (.l_true, dep, s1)
      else (.l_undet, dep, { s1 with m_unknown := interpAtomsMsg interp })

/-- Mirrors inc_sat_solver::internalize_formulas: a no-op returning l_true
when the frontier already covers m_fmls; otherwise the untranslated suffix
is run through internalize_goal, and the frontier advances to m_fmls.size()
unless the result is l_undet. -/
def internalize_formulas (oracle : PipeOracle) (s : SolverState) :
    Lbool × SolverState :=
  if s.m_fmls_head = s.m_fmls.length then (.l_true, s)
  else
    let g := (s.m_fmls.drop s.m_fmls_head).map (fun f => (f, (none : Option Expr)))
    let p := internalize_goal (oracle g) s
    if p.1 ≠ .l_undet then
      (p.1, { p.2.2 with m_fmls_head := p.2.2.m_fmls.length })
    else (p.1, p.2.2)

/-- Mirrors inc_sat_solver::push: internalize pending formulas, forward a
push to the engine (external), bump m_num_scopes, snapshot the three
sequence lengths, and push the bit-blast rewriter and the variable map. -/
def push (oracle : PipeOracle) (s : SolverState) : SolverState :=
  let s1 := (internalize_formulas oracle s).2
  { s1 with
    m_num_scopes := s1.m_num_scopes + 1
    m_fmls_lim := s1.m_fmls.length :: s1.m_fmls_lim
    m_asms_lim := s1.m_asmsf.length :: s1.m_asms_lim
    m_fmls_head_lim := s1.m_fmls_head :: s1.m_fmls_head_lim
    m_bb_rewriter := s1.m_bb_rewriter.map (· + 1)
    m_map := s1.m_map.push }

/-- The while loop of inc_sat_solver::pop: once per popped level, restore
the frontier and truncate the formula and assumption sequences from the
checkpoint stacks. -/
def popLoop : Nat → SolverState → SolverState
  | 0, s => s
  | n + 1, s =>
      popLoop n { s with
        m_fmls_head := s.m_fmls_head_lim.headD 0
        m_fmls := s.m_fmls.take (s.m_fmls_lim.headD 0)
        m_fmls_lim := s.m_fmls_lim.tail
        m_fmls_head_lim := s.m_fmls_head_lim.tail
        m_asmsf := s.m_asmsf.take (s.m_asms_lim.headD 0)
        m_asms_lim := s.m_asms_lim.tail }

/-- Mirrors inc_sat_solver::pop: the count is silently clamped to
m_num_scopes, the bit-blast rewriter, variable map and engine pop first,
m_num_scopes is decreased, and then the checkpoint loop restores the
sequences. -/
def pop (n : Nat) (s : SolverState) : SolverState :=
  let n' := if n > s.m_num_scopes then s.m_num_scopes else n
  popLoop n' { s with
    m_bb_rewriter := s.m_bb_rewriter.map (· - n')
    m_map := Atom2BoolVar.popN n' s.m_map
    m_num_scopes := s.m_num_scopes - n' }

/-- Lookup of a term in a dependency map (obj_map find), first match. -/
def findLit (a : Expr) : List (Expr × Lit) → Option Lit
  | [] => none
  | (k, l) :: rest => if k = a then some l else findLit a rest

/-- The first loop of inc_sat_solver::extract_assumptions over the
call-supplied terms, carrying the absolute index i and the compaction index
j: a term found in dep2asm contributes its literal, and when i and j differ
(and the weights array is in use) the weight at i is copied down to j. -/
def extractLoop1 (dep : List (Expr × Lit)) :
    List Expr → Nat → Nat → List Rat → List Lit × List Rat × Nat
  | [], _, j, w => ([], w, j)
  | a :: rest, i, j, w =>
      match findLit a dep with
      | some lit =>
          let w1 := if i ≠ j ∧ ¬w.isEmpty then w.set j (w.getD i 0) else w
          let r := extractLoop1 dep rest (i + 1) (j + 1) w1
          (lit :: r.1, r.2)
      | none => extractLoop1 dep rest (i + 1) j w

/-- The second loop of inc_sat_solver::extract_assumptions over the standing
assumptions: terms found in dep2asm contribute their literal, in order. -/
def extractLoop2 (dep : List (Expr × Lit)) : List Expr → List Lit
  | [] => []
  | a :: rest =>
      match findLit a dep with
      | some lit => lit :: extractLoop2 dep rest
      | none => extractLoop2 dep rest

/-- The absolute indices of the call-supplied terms that are found in
dep2asm (those whose weights survive compaction), starting at index i. -/
def keptIdx (dep : List (Expr × Lit)) : List Expr → Nat → List Nat
  | [], _ => []
  | a :: rest, i =>
      match findLit a dep with
      | some _ => i :: keptIdx dep rest (i + 1)
      | none => keptIdx dep rest (i + 1)

/-- Mirrors inc_sat_solver::extract_assumptions: m_asms is rebuilt as the
literals of the call-supplied terms found in dep2asm (with weight
compaction) followed by the literals of the standing assumptions found in
dep2asm. -/
def extract_assumptions (asms : List Expr) (dep : List (Expr × Lit))
    (standing : List Expr) (w : List Rat) : List Lit × List Rat :=
  let r := extractLoop1 dep asms 0 0 w
  (r.1 ++ extractLoop2 dep standing, r.2.1)

/-- The goal built by inc_sat_solver::internalize_assumptions: each
call-supplied term and each standing assumption is asserted with itself as
its own dependency leaf (mk_leaf). -/
def mkAsmGoal (asms standing : List Expr) : List (Expr × Option Expr) :=
  asms.map (fun a => (a, some a)) ++ standing.map (fun a => (a, some a))

/-- Mirrors inc_sat_solver::internalize_assumptions: with no call-supplied
terms and no standing assumptions, m_asms is shrunk to empty and the call
succeeds; otherwise the dependency-tagged goal runs through
internalize_goal and, on success, extract_assumptions derives m_asms and
the compacted weights.  The dep2asm map built by the call is returned. -/
def internalize_assumptions (oracle : PipeOracle) (asms : List Expr)
    (s : SolverState) : Lbool × List (Expr × Lit) × SolverState :=
  if asms.length = 0 ∧ s.m_asmsf.length = 0 then
    (.l_true, [], { s with m_asms := [] })
  else
    let p := internalize_goal (oracle (mkAsmGoal asms s.m_asmsf)) s
    if p.1 = .l_true then
      let r := extract_assumptions asms p.2.1 p.2.2.m_asmsf p.2.2.m_weights
      (.l_true, p.2.1, { p.2.2 with m_asms := r.1, m_weights := r.2 })
    else p

/-- Lookup by literal index in the inverted dependency map (u_map find). -/
def lookupIdx (idx : Nat) : List (Nat × Expr) → Option Expr
  | [] => none
  | (k, e) :: rest => if k = idx then some e else lookupIdx idx rest

/-- Mirrors inc_sat_solver::extract_asm2dep: invert dep2asm into a map from
literal index to justifying term. -/
def asm2dep (dep : List (Expr × Lit)) : List (Nat × Expr) :=
  dep.map (fun p => (p.2.index, p.1))

/-- The loop of inc_sat_solver::extract_core: each engine core literal is
looked up in the inverted map; a failed lookup is the fatal VERIFY
violation, modelled as none. -/
def coreLoop (a2d : List (Nat × Expr)) : List Lit → Option (List Expr)
  | [] => some []
  | l :: rest =>
      match lookupIdx l.index a2d with
      | some e =>
          match coreLoop a2d rest with
          | some es => some (e :: es)
          | none => none
      | none => none

/-- Mirrors inc_sat_solver::extract_core: m_core is reset and rebuilt from
the engine core through the inverted dependency map; none models the fatal
VERIFY failure on a literal with no recorded justifying term. -/
def extract_core (dep : List (Expr × Lit)) (engineCore : List Lit)
    (s : SolverState) : Option SolverState :=
  match coreLoop (asm2dep dep) engineCore with
  | some ec => some { s with m_core := ec }
  | none => none

/-- Mirrors sat::value_at on the engine model: the assignment of the
literal's variable, flipped when the literal is negative. -/
def value_at (l : Lit) (mdl : List Lbool) : Lbool :=
  let v := mdl.getD l.var .l_undet
  if l.sign then v.neg else v

/-- Mirrors inc_sat_solver::check_assumptions: every assumption literal in
dep2asm must evaluate to l_true under the engine model; false models the
thrown bad-state exception. -/
def check_assumptions (dep : List (Expr × Lit)) (mdl : List Lbool) : Bool :=
  dep.all (fun p => value_at p.2 mdl = .l_true)

/-- Mirrors the weighted inc_sat_solver::check_sat: weights are stored, the
model cache is invalidated, formulas and assumptions are internalized, and
the engine answer is post-processed: on l_true with unweighted assumptions
check_assumptions runs (none models the thrown exception), on l_false with
a non-empty m_asms extract_core runs (none models the fatal VERIFY). -/
def check_sat (oracle : PipeOracle) (eng : EngineResult) (asms : List Expr)
    (weights : Option (List Rat)) (s : SolverState) :
    Option (Lbool × SolverState) :=
  let s1 : SolverState := { s with m_weights := weights.getD [], m_model := none }
  let p1 := internalize_formulas oracle s1
  if p1.1 ≠ .l_true then some p1
  else
    let p2 := internalize_assumptions oracle asms p1.2
    if p2.1 ≠ .l_true then some (p2.1, p2.2.2)
    else
      match eng.res with
      | .l_true =>
          if asms.length > 0 ∧ weights = none then
            if check_assumptions p2.2.1 eng.model then some (.l_true, p2.2.2)
            else none
          else some (.l_true, p2.2.2)
      | .l_false =>
          if p2.2.2.m_asms ≠ [] then
            match extract_core p2.2.1 eng.core p2.2.2 with
            | some s4 => some (.l_false, s4)
            | none => none
          else some (.l_false, p2.2.2)
      | .l_undet => some (.l_undet, p2.2.2)

/-- The memoized powers-of-two table m_exps: it starts as the single entry
one and is extended by doubling the last entry until it reaches the
requested size. -/
def mkExps : Nat → List Nat
  | 0 => [1]
  | n + 1 =>
      let e := mkExps n
      if e.length < n + 1 then e ++ [2 * e.getLastD 1] else e

/-- The accumulation loop of inc_sat_solver::internalize_value over the bit
literals: bit i contributes exps[i] exactly when its literal is positive. -/
def bvLoop (value : List Lit) (exps : List Nat) : Nat → Nat
  | 0 => 0
  | i + 1 =>
      bvLoop value exps i +
        (if (value.getD i default).sign then 0 else exps.getD i 0)

/-- The numeric value assembled from the bit literals of a consequence. -/
def bvValue (value : List Lit) : Nat :=
  bvLoop value (mkExps value.length) value.length

/-- Mirrors inc_sat_solver::internalize_value: an uninterpreted boolean
constant yields the (possibly negated) atom itself; an uninterpreted
bit-vector constant yields an equality with the numeral assembled from the
bit polarities; anything else is the UNREACHABLE case, modelled as none. -/
def internalize_value (value : List Lit) (v : Expr) : Option Expr :=
  match v with
  | .boolConst n =>
      some (if (value.getD 0 default).sign
        then .not (.boolConst n) else .boolConst n)
  | .bvConst n w =>
      some (.eq (.bvConst n w) (.bvNumeral (bvValue value) value.length))
  | _ => none

/-- The polarity stripping in inc_sat_solver::find_mutexes: m.is_not(e, e)
removes one leading negation and records it in the sign. -/
def strip_not : Expr → Expr × Bool
  | .not e => (e, true)
  | e => (e, false)

/-- The forward pass of inc_sat_solver::find_mutexes: atoms with an
assigned boolean variable become literals (collected in order) and are
indexed back to their originating input term by literal index; atoms
without a variable are silently dropped. -/
def mutexForward (mp : Atom2BoolVar) : List Expr → List Lit × List (Nat × Expr)
  | [] => ([], [])
  | v :: rest =>
      let p := strip_not v
      let r := mutexForward mp rest
      match Atom2BoolVar.to_bool_var p.1 mp.entries with
      | some b => (⟨b, p.2⟩ :: r.1, (Lit.index ⟨b, p.2⟩, v) :: r.2)
      | none => r

/-- Mirrors inc_sat_solver::find_mutexes: the engine's grouping (an oracle
mapping the literal list to groups of literals) is translated back to input
terms via the index built in the forward pass, and the function returns
l_true unconditionally (the engine's own status is discarded). -/
def find_mutexes (engine : List Lit → List (List Lit)) (vars : List Expr)
    (s : SolverState) : Lbool × List (List Expr) :=
  let f := mutexForward s.m_map vars
  let groups := engine f.1
  (.l_true,
    groups.map (fun g => g.map (fun l => (lookupIdx l.index f.2).getD default)))

/-- Mirrors inc_sat_solver::translate: at nonzero scope depth the call
throws a default_exception (modelled as error); at depth zero a fresh
instance is built whose m_fmls and m_asmsf are the elementwise translations
(tr models the ast_translation into the destination manager) of the
original sequences, in order. -/
def translate (tr : Expr → Expr) (s : SolverState) : Except String SolverState :=
  if s.m_num_scopes > 0 then
    .error "Cannot translate sat solver at non-base level"
  else
    .ok { initState with
      m_fmls := s.m_fmls.map tr
      m_asmsf := s.m_asmsf.map tr }

/-- A user-level call that only grows the stacks: a plain assert, a guarded
assert, or a push (the operations quantified over in the push/pop claims). -/
inductive Op where
  | assert (t : Expr)
  | assertG (t : Expr) (a : Expr)
  | push
deriving DecidableEq

/-- Run a sequence of asserts and pushes against the solver state. -/
def runOps (oracle : PipeOracle) : List Op → SolverState → SolverState
  | [], s => s
  | .assert t :: rest, s => runOps oracle rest (assert_expr t s)
  | .assertG t a :: rest, s => runOps oracle rest (assert_expr2 t (some a) s)
  | .push :: rest, s => runOps oracle rest (push oracle s)

/-- The number of pushes in an operation sequence. -/
def countPush : List Op → Nat
  | [] => 0
  | .push :: rest => countPush rest + 1
  | .assert _ :: rest => countPush rest
  | .assertG _ _ :: rest => countPush rest

/-- A scope operation: a push or a pop of n levels. -/
inductive ScopeOp where
  | push
  | pop (n : Nat)
deriving DecidableEq

/-- Run a sequence of pushes and pops against the solver state. -/
def runScope (oracle : PipeOracle) : List ScopeOp → SolverState → SolverState
  | [], s => s
  | .push :: rest, s => runScope oracle rest (push oracle s)
  | .pop n :: rest, s => runScope oracle rest (pop n s)

/-- A concrete oracle for witnesses: the pipeline succeeds with one residual
goal, no new atoms, an empty dependency map and no interpreted atoms. -/
def pipeOk : PipeOracle := fun _ => .reduced [] [] []

/-- A concrete oracle for counterexamples: the pipeline raises a tactic
exception on every goal (for example on an internal limit). -/
def pipeFail : PipeOracle := fun _ => .tacticFail

/-- A concrete state with one asserted but not yet internalized formula. -/
def exState : SolverState := assert_expr (Expr.boolConst 0) initState

/-- A concrete oracle for witnesses: the pipeline succeeds and goal2sat
fills a one-entry dependency map mapping atom b0 to literal 3. -/
def pipeDep : PipeOracle := fun _ => .reduced [] [(Expr.boolConst 0, ⟨3, false⟩)] []

/-- A concrete state carrying two assumption weights, as set up by the
weighted check entry point. -/
def wState : SolverState := { initState with m_weights := [1, 2] }

/-- The shape of the checkpoint stacks after a push followed by further
asserts and pushes: the entry deposited by that first push sits k-1 levels
deep, every younger formula/assumption checkpoint is at least as large, and
the current sequences are at least as long, so that popping k levels
restores exactly the first push's snapshot (F, A, H). -/
structure PopInv (t : SolverState) (k F A H : Nat) : Prop where
  hk : 1 ≤ k
  hfl : ∃ u r, t.m_fmls_lim = u ++ F :: r ∧ u.length = k - 1 ∧ ∀ x ∈ u, F ≤ x
  hflen : F ≤ t.m_fmls.length
  hal : ∃ u r, t.m_asms_lim = u ++ A :: r ∧ u.length = k - 1 ∧ ∀ x ∈ u, A ≤ x
  halen : A ≤ t.m_asmsf.length
  hhl : ∃ u r, t.m_fmls_head_lim = u ++ H :: r ∧ u.length = k - 1

lemma internalize_goal_frame (oc : PipeOutcome) (s : SolverState) :
    ((internalize_goal oc s).2.2).m_fmls = s.m_fmls ∧
    ((internalize_goal oc s).2.2).m_asmsf = s.m_asmsf ∧
    ((internalize_goal oc s).2.2).m_fmls_lim = s.m_fmls_lim ∧
    ((internalize_goal oc s).2.2).m_asms_lim = s.m_asms_lim ∧
    ((internalize_goal oc s).2.2).m_fmls_head_lim = s.m_fmls_head_lim ∧
    ((internalize_goal oc s).2.2).m_fmls_head = s.m_fmls_head ∧
    ((internalize_goal oc s).2.2).m_num_scopes = s.m_num_scopes ∧
    ((internalize_goal oc s).2.2).m_core = s.m_core ∧
    ((internalize_goal oc s).2.2).m_model = s.m_model ∧
    ((internalize_goal oc s).2.2).m_asms = s.m_asms ∧
    ((internalize_goal oc s).2.2).m_weights = s.m_weights := by
  cases oc with
  | tacticFail => simp [internalize_goal, init_preprocess]
  | badSubgoals n => simp [internalize_goal, init_preprocess]
  | reduced na dep interp =>
      by_cases h : interp.isEmpty <;>
        simp [internalize_goal, init_preprocess, h]

lemma internalize_formulas_frame (oracle : PipeOracle) (s : SolverState) :
    (internalize_formulas oracle s).2.m_fmls = s.m_fmls ∧
    (internalize_formulas oracle s).2.m_asmsf = s.m_asmsf ∧
    (internalize_formulas oracle s).2.m_fmls_lim = s.m_fmls_lim ∧
    (internalize_formulas oracle s).2.m_asms_lim = s.m_asms_lim ∧
    (internalize_formulas oracle s).2.m_fmls_head_lim = s.m_fmls_head_lim ∧
    (internalize_formulas oracle s).2.m_num_scopes = s.m_num_scopes ∧
    (internalize_formulas oracle s).2.m_core = s.m_core ∧
    (internalize_formulas oracle s).2.m_model = s.m_model ∧
    (internalize_formulas oracle s).2.m_asms = s.m_asms ∧
    (internalize_formulas oracle s).2.m_weights = s.m_weights := by
  by_cases h : s.m_fmls_head = s.m_fmls.length
  · simp [internalize_formulas, h]
  · simp only [internalize_formulas]
    rw [if_neg h]
    generalize oracle ((s.m_fmls.drop s.m_fmls_head).map (fun f => (f, (none : Option Expr)))) = oc
    obtain ⟨h1, h2, h3, h4, h5, h6, h7, h8, h9, h10, h11⟩ := internalize_goal_frame oc s
    by_cases hu : (internalize_goal oc s).1 = Lbool.l_undet
    · simp [hu, h1, h2, h3, h4, h5, h7, h8, h9, h10, h11]
    · simp [hu, h1, h2, h3, h4, h5, h7, h8, h9, h10, h11]

lemma internalize_formulas_head (oracle : PipeOracle) (s : SolverState)
    (h : (internalize_formulas oracle s).1 ≠ Lbool.l_undet) :
    (internalize_formulas oracle s).2.m_fmls_head =
      (internalize_formulas oracle s).2.m_fmls.length := by
  by_cases hc : s.m_fmls_head = s.m_fmls.length
  · simp [internalize_formulas, hc]
  · simp only [internalize_formulas] at h ⊢
    rw [if_neg hc] at h ⊢
    generalize hg :
      oracle ((s.m_fmls.drop s.m_fmls_head).map (fun f => (f, (none : Option Expr)))) = oc at h ⊢
    by_cases hu : (internalize_goal oc s).1 = Lbool.l_undet
    · exfalso
      apply h
      simp [hu]
    · simp [hu]

lemma popLoop_model_core (n : Nat) (s : SolverState) :
    (popLoop n s).m_model = s.m_model ∧ (popLoop n s).m_core = s.m_core := by
  induction n generalizing s with
  | zero => exact ⟨rfl, rfl⟩
  | succ n ih => simpa [popLoop] using ih _

lemma pop_model_core (n : Nat) (s : SolverState) :
    (pop n s).m_model = s.m_model ∧ (pop n s).m_core = s.m_core := by
  simpa [pop] using popLoop_model_core _ _

lemma push_model_core (oracle : PipeOracle) (s : SolverState) :
    (push oracle s).m_model = s.m_model ∧ (push oracle s).m_core = s.m_core := by
  obtain ⟨-, -, -, -, -, -, h7, h8, -, -⟩ := internalize_formulas_frame oracle s
  simp [push, h7, h8]

/-- C2: pop(n) with n larger than the scope depth is not an error and is
exactly pop of the current depth: n is silently clamped to m_num_scopes. -/
theorem pop_clamp_correct (n : Nat) (s : SolverState)
    (h : n > get_scope_level s) :
    pop n s = pop (get_scope_level s) s := by
  unfold pop get_scope_level at *
  simp [if_pos h, lt_irrefl]

theorem pop_clamp_correct_witness :
    3 > get_scope_level initState ∧ pop 3 initState = pop (get_scope_level initState) initState :=
  ⟨by decide, pop_clamp_correct 3 initState (by decide)⟩

/-- C9: translate at nonzero scope depth throws the fatal usage error and
produces no result; at depth zero it yields a fresh instance whose formula
and assumption sequences are the elementwise translations of the originals,
in order. -/
theorem translate_correct (tr : Expr → Expr) (s : SolverState) :
    (get_scope_level s > 0 →
      translate tr s = .error "Cannot translate sat solver at non-base level") ∧
    (get_scope_level s = 0 →
      translate tr s = .ok { initState with
        m_fmls := s.m_fmls.map tr
        m_asmsf := s.m_asmsf.map tr }) := by
  constructor
  · intro h
    unfold get_scope_level at h
    simp [translate, Nat.pos_iff_ne_zero.mp h]
  · intro h
    unfold get_scope_level at h
    simp [translate, h]

theorem translate_correct_witness :
    (get_scope_level (push pipeOk initState) > 0 ∧
      translate (fun e => e) (push pipeOk initState) =
        .error "Cannot translate sat solver at non-base level") ∧
    (get_scope_level initState = 0 ∧
      translate (fun e => e) initState = .ok { initState with
        m_fmls := initState.m_fmls.map (fun e => e)
        m_asmsf := initState.m_asmsf.map (fun e => e) }) :=
  ⟨⟨by decide, (translate_correct (fun e => e) (push pipeOk initState)).1 (by decide)⟩,
   ⟨by decide, (translate_correct (fun e => e) initState).2 (by decide)⟩⟩

/-- C6 counterexample: an internalize_goal call that fails with a pipeline
(tactic) exception returns l_undet, yet reason_unknown afterwards still
yields the constructor placeholder string, unchanged by the call: no string
describing the pipeline failure was recorded, contrary to the claim. -/
theorem reason_unknown_cex :
    (internalize_goal .tacticFail initState).1 = Lbool.l_undet ∧
    reason_unknown (internalize_goal .tacticFail initState).2.2 =
      reason_unknown initState ∧
    reason_unknown initState = "no reason given" :=
  ⟨rfl, rfl, rfl⟩

/-- C6 amended: of the three recoverable unknown outcomes of
internalize_goal, only the residual-interpreted-atoms case records a
descriptive reason retrievable via reason_unknown; a pipeline stage failure
and a non-singleton residual subgoal set return l_undet while leaving the
reason string exactly as it was before the call. -/
theorem reason_unknown_amended (s : SolverState) (n : Nat)
    (na : List (Expr × Nat)) (dep : List (Expr × Lit)) (interp : List Expr) :
    ((internalize_goal .tacticFail s).1 = Lbool.l_undet ∧
      reason_unknown (internalize_goal .tacticFail s).2.2 = reason_unknown s) ∧
    ((internalize_goal (.badSubgoals n) s).1 = Lbool.l_undet ∧
      reason_unknown (internalize_goal (.badSubgoals n) s).2.2 = reason_unknown s) ∧
    (interp ≠ [] →
      (internalize_goal (.reduced na dep interp) s).1 = Lbool.l_undet ∧
      reason_unknown (internalize_goal (.reduced na dep interp) s).2.2 =
        interpAtomsMsg interp) := by
  refine ⟨⟨rfl, rfl⟩, ⟨rfl, rfl⟩, ?_⟩
  intro h
  have hi : interp.isEmpty = false := by
    cases interp with
    | nil => exact absurd rfl h
    | cons a l => rfl
  constructor <;> simp [internalize_goal, reason_unknown, hi]

theorem reason_unknown_amended_witness :
    ([Expr.boolConst 0] ≠ ([] : List Expr)) ∧
    ((internalize_goal (.reduced [] [] [Expr.boolConst 0]) initState).1 = Lbool.l_undet ∧
      reason_unknown (internalize_goal (.reduced [] [] [Expr.boolConst 0]) initState).2.2 =
        interpAtomsMsg [Expr.boolConst 0]) :=
  ⟨by decide,
    (reason_unknown_amended initState 0 [] [] [Expr.boolConst 0]).2.2 (by decide)⟩

/-- C3 counterexample: when the first internalize_formulas call fails (here
the pipeline raises a tactic exception), the frontier is left unchanged and
the second call, with no intervening assert, is not a success: it retries
the same suffix and returns l_undet, not l_true. -/
theorem internalize_formulas_cex :
    (internalize_formulas pipeFail
      ((internalize_formulas pipeFail exState).2)).1 ≠ Lbool.l_true := by
  decide

/-- C3 amended: if an internalize_formulas call does not return l_undet,
then a second call with no intervening assert is a no-op returning l_true
independently of the pipeline (so nothing is re-translated); in particular,
whenever the frontier m_fmls_head already equals m_fmls.size(), the call
returns l_true with the state untouched and without consulting the
pipeline. -/
theorem internalize_formulas_noop (oracle : PipeOracle) (s : SolverState) :
    ((internalize_formulas oracle s).1 ≠ Lbool.l_undet →
      ∀ oracle2 : PipeOracle,
        internalize_formulas oracle2 (internalize_formulas oracle s).2 =
          (Lbool.l_true, (internalize_formulas oracle s).2)) ∧
    (s.m_fmls_head = s.m_fmls.length →
      internalize_formulas oracle s = (Lbool.l_true, s)) := by
  constructor
  · intro h oracle2
    have hh := internalize_formulas_head oracle s h
    generalize (internalize_formulas oracle s).2 = t at hh ⊢
    simp [internalize_formulas, hh]
  · intro h
    simp [internalize_formulas, h]

theorem internalize_formulas_noop_witness :
    ((internalize_formulas pipeOk exState).1 ≠ Lbool.l_undet ∧
      internalize_formulas pipeFail (internalize_formulas pipeOk exState).2 =
        (Lbool.l_true, (internalize_formulas pipeOk exState).2)) ∧
    (initState.m_fmls_head = initState.m_fmls.length ∧
      internalize_formulas pipeOk initState = (Lbool.l_true, initState)) :=
  ⟨⟨by decide, (internalize_formulas_noop pipeOk exState).1 (by decide) pipeFail⟩,
   ⟨by decide, (internalize_formulas_noop pipeOk initState).2 (by decide)⟩⟩

/-- C10: find_mutexes returns the satisfiable status l_true for every input
atom vector, every solver state and every engine grouping, regardless of
how many atoms were silently dropped for lacking a boolean variable; it
never reports unsat or unknown. -/
theorem find_mutexes_always_true (engine : List Lit → List (List Lit))
    (vars : List Expr) (s : SolverState) :
    (find_mutexes engine vars s).1 = Lbool.l_true := rfl

lemma internalize_formulas_of_covered (oracle : PipeOracle) (s : SolverState)
    (h : s.m_fmls_head = s.m_fmls.length) :
    internalize_formulas oracle s = (Lbool.l_true, s) := by
  simp [internalize_formulas, h]

lemma popLoop_succ (n : Nat) (s : SolverState) :
    popLoop (n + 1) s = popLoop n { s with
      m_fmls_head := s.m_fmls_head_lim.headD 0
      m_fmls := s.m_fmls.take (s.m_fmls_lim.headD 0)
      m_fmls_lim := s.m_fmls_lim.tail
      m_fmls_head_lim := s.m_fmls_head_lim.tail
      m_asmsf := s.m_asmsf.take (s.m_asms_lim.headD 0)
      m_asms_lim := s.m_asms_lim.tail } := rfl

lemma popLoop_spec :
    ∀ (k : Nat) (t : SolverState) (F A H : Nat), PopInv t k F A H →
      (popLoop k t).m_fmls.length = F ∧ (popLoop k t).m_asmsf.length = A ∧
      (popLoop k t).m_fmls_head = H := by
  intro k
  induction k with
  | zero =>
      intro t F A H inv
      exact absurd inv.hk (by omega)
  | succ k ih =>
      intro t F A H inv
      obtain ⟨u1, r1, e1, l1, b1⟩ := inv.hfl
      obtain ⟨u2, r2, e2, l2, b2⟩ := inv.hal
      obtain ⟨u3, r3, e3, l3⟩ := inv.hhl
      have hflen := inv.hflen
      have halen := inv.halen
      cases k with
      | zero =>
          have hu1 : u1 = [] := List.length_eq_zero.mp (by simpa using l1)
          have hu2 : u2 = [] := List.length_eq_zero.mp (by simpa using l2)
          have hu3 : u3 = [] := List.length_eq_zero.mp (by simpa using l3)
          subst hu1 hu2 hu3
          simp only [List.nil_append] at e1 e2 e3
          refine ⟨?_, ?_, ?_⟩
          · simp [popLoop, e1, List.length_take]
            omega
          · simp [popLoop, e2, List.length_take]
            omega
          · simp [popLoop, e3]
      | succ k' =>
          obtain ⟨x1, u1', rfl⟩ : ∃ x u', u1 = x :: u' := by
            cases u1 with
            | nil => simp at l1
            | cons a b => exact ⟨a, b, rfl⟩
          obtain ⟨x2, u2', rfl⟩ : ∃ x u', u2 = x :: u' := by
            cases u2 with
            | nil => simp at l2
            | cons a b => exact ⟨a, b, rfl⟩
          obtain ⟨x3, u3', rfl⟩ : ∃ x u', u3 = x :: u' := by
            cases u3 with
            | nil => simp at l3
            | cons a b => exact ⟨a, b, rfl⟩
          rw [popLoop_succ]
          apply ih
          refine ⟨by omega, ⟨u1', r1, ?_, ?_, ?_⟩, ?_, ⟨u2', r2, ?_, ?_, ?_⟩, ?_, ⟨u3', r3, ?_, ?_⟩⟩
          · simp [e1]
          · simpa using l1
          · intro x hx
            exact b1 x (List.mem_cons_of_mem _ hx)
          · have hx1 : F ≤ x1 := b1 x1 (List.mem_cons_self _ _)
            simp [e1, List.length_take]
            omega
          · simp [e2]
          · simpa using l2
          · intro x hx
            exact b2 x (List.mem_cons_of_mem _ hx)
          · have hx2 : A ≤ x2 := b2 x2 (List.mem_cons_self _ _)
            simp [e2, List.length_take]
            omega
          · simp [e3]
          · simpa using l3

lemma pop_spec (k : Nat) (t : SolverState) (F A H : Nat)
    (inv : PopInv t k F A H) (hsc : k ≤ t.m_num_scopes) :
    (pop k t).m_fmls.length = F ∧ (pop k t).m_asmsf.length = A ∧
    (pop k t).m_fmls_head = H := by
  have hcl : ¬ k > t.m_num_scopes := by omega
  simp only [pop, if_neg hcl]
  apply popLoop_spec
  refine ⟨inv.hk, ?_, ?_, ?_, ?_, ?_⟩
  · simpa using inv.hfl
  · simpa using inv.hflen
  · simpa using inv.hal
  · simpa using inv.halen
  · simpa using inv.hhl

lemma assert_expr_inv (e : Expr) (t : SolverState) (k F A H : Nat)
    (inv : PopInv t k F A H) : PopInv (assert_expr e t) k F A H := by
  refine ⟨inv.hk, ?_, ?_, ?_, ?_, ?_⟩
  · simpa [assert_expr] using inv.hfl
  · have := inv.hflen
    simp [assert_expr]
    omega
  · simpa [assert_expr] using inv.hal
  · simpa [assert_expr] using inv.halen
  · simpa [assert_expr] using inv.hhl

lemma assert_expr2_inv (e a : Expr) (t : SolverState) (k F A H : Nat)
    (inv : PopInv t k F A H) : PopInv (assert_expr2 e (some a) t) k F A H := by
  refine ⟨inv.hk, ?_, ?_, ?_, ?_, ?_⟩
  · simpa [assert_expr2, assert_expr] using inv.hfl
  · have := inv.hflen
    simp [assert_expr2, assert_expr]
    omega
  · simpa [assert_expr2, assert_expr] using inv.hal
  · have := inv.halen
    simp [assert_expr2, assert_expr]
    omega
  · simpa [assert_expr2, assert_expr] using inv.hhl

lemma push_num_scopes (oracle : PipeOracle) (t : SolverState) :
    (push oracle t).m_num_scopes = t.m_num_scopes + 1 := by
  obtain ⟨-, -, -, -, -, h6, -, -, -, -⟩ := internalize_formulas_frame oracle t
  simp [push, h6]

lemma push_inv (oracle : PipeOracle) (t : SolverState) (k F A H : Nat)
    (inv : PopInv t k F A H) : PopInv (push oracle t) (k + 1) F A H := by
  obtain ⟨h1, h2, h3, h4, h5, -, -, -, -, -⟩ := internalize_formulas_frame oracle t
  obtain ⟨u1, r1, e1, l1, b1⟩ := inv.hfl
  obtain ⟨u2, r2, e2, l2, b2⟩ := inv.hal
  obtain ⟨u3, r3, e3, l3⟩ := inv.hhl
  have hk := inv.hk
  refine ⟨by omega,
    ⟨t.m_fmls.length :: u1, r1, ?_, ?_, ?_⟩, ?_,
    ⟨t.m_asmsf.length :: u2, r2, ?_, ?_, ?_⟩, ?_,
    ⟨(internalize_formulas oracle t).2.m_fmls_head :: u3, r3, ?_, ?_⟩⟩
  · simp [push, h1, h3, e1]
  · simp [l1]
    omega
  · intro x hx
    rcases List.mem_cons.mp hx with h | h
    · subst h
      exact inv.hflen
    · exact b1 x h
  · simpa [push, h1] using inv.hflen
  · simp [push, h2, h4, e2]
  · simp [l2]
    omega
  · intro x hx
    rcases List.mem_cons.mp hx with h | h
    · subst h
      exact inv.halen
    · exact b2 x h
  · simpa [push, h2] using inv.halen
  · simp [push, h5, e3]
  · simp [l3]
    omega

lemma push_base (oracle : PipeOracle) (s : SolverState) :
    PopInv (push oracle s) 1 s.m_fmls.length s.m_asmsf.length
      ((internalize_formulas oracle s).2).m_fmls_head := by
  obtain ⟨h1, h2, h3, h4, h5, -, -, -, -, -⟩ := internalize_formulas_frame oracle s
  refine ⟨le_rfl,
    ⟨[], s.m_fmls_lim, ?_, rfl, by simp⟩, ?_,
    ⟨[], s.m_asms_lim, ?_, rfl, by simp⟩, ?_,
    ⟨[], s.m_fmls_head_lim, ?_, rfl⟩⟩
  · simp [push, h1, h3]
  · simp [push, h1]
  · simp [push, h2, h4]
  · simp [push, h2]
  · simp [push, h5]

lemma runOps_inv (oracle : PipeOracle) :
    ∀ (ops : List Op) (t : SolverState) (k F A H : Nat), PopInv t k F A H →
      PopInv (runOps oracle ops t) (k + countPush ops) F A H ∧
      (runOps oracle ops t).m_num_scopes = t.m_num_scopes + countPush ops := by
  intro ops
  induction ops with
  | nil =>
      intro t k F A H inv
      exact ⟨by simpa [runOps, countPush] using inv, by simp [runOps, countPush]⟩
  | cons op rest ih =>
      intro t k F A H inv
      cases op with
      | assert e =>
          have h := ih (assert_expr e t) k F A H (assert_expr_inv e t k F A H inv)
          refine ⟨by simpa [runOps, countPush] using h.1, ?_⟩
          rw [show runOps oracle (Op.assert e :: rest) t
              = runOps oracle rest (assert_expr e t) from rfl, h.2]
          simp [assert_expr, countPush]
      | assertG e a =>
          have h := ih (assert_expr2 e (some a) t) k F A H
            (assert_expr2_inv e a t k F A H inv)
          refine ⟨by simpa [runOps, countPush] using h.1, ?_⟩
          rw [show runOps oracle (Op.assertG e a :: rest) t
              = runOps oracle rest (assert_expr2 e (some a) t) from rfl, h.2]
          simp [assert_expr2, assert_expr, countPush]
      | push =>
          have h := ih (push oracle t) (k + 1) F A H (push_inv oracle t k F A H inv)
          constructor
          · rw [show runOps oracle (Op.push :: rest) t
                = runOps oracle rest (push oracle t) from rfl,
              show countPush (Op.push :: rest) = countPush rest + 1 from rfl,
              show k + (countPush rest + 1) = k + 1 + countPush rest by omega]
            exact h.1
          · rw [show runOps oracle (Op.push :: rest) t
                = runOps oracle rest (push oracle t) from rfl, h.2,
              push_num_scopes oracle t,
              show countPush (Op.push :: rest) = countPush rest + 1 from rfl]
            omega

/-- C1 counterexample: starting from the state with one asserted but not
yet internalized formula, a single push (whose forced internalization
succeeds and advances the frontier to one before the snapshot is taken)
followed by pop(1) restores the formula and assumption counts but sets the
frontier index to one, not to its pre-push value zero: the claim's frontier
clause fails. -/
theorem push_pop_restore_cex :
    ¬ ((pop 1 (push pipeOk exState)).m_fmls.length = exState.m_fmls.length ∧
       (pop 1 (push pipeOk exState)).m_asmsf.length = exState.m_asmsf.length ∧
       (pop 1 (push pipeOk exState)).m_fmls_head = exState.m_fmls_head) := by
  decide

/-- C1 amended: for every starting state and every subsequent sequence of
asserts and pushes containing k pushes, pop(k) restores the formula count
and the assumption count exactly to their values before the first of the k
pushes; the frontier index is restored to its value just after the first
push's forced internalization, which coincides with the pre-push value
exactly when the frontier already covered all formulas at the first push
(in particular whenever there was nothing left to internalize). -/
theorem push_pop_restore (oracle : PipeOracle) (s : SolverState) (post : List Op) :
    (pop (countPush post + 1) (runOps oracle post (push oracle s))).m_fmls.length
      = s.m_fmls.length ∧
    (pop (countPush post + 1) (runOps oracle post (push oracle s))).m_asmsf.length
      = s.m_asmsf.length ∧
    (pop (countPush post + 1) (runOps oracle post (push oracle s))).m_fmls_head
      = ((internalize_formulas oracle s).2).m_fmls_head ∧
    (s.m_fmls_head = s.m_fmls.length →
      (pop (countPush post + 1) (runOps oracle post (push oracle s))).m_fmls_head
        = s.m_fmls_head) := by
  obtain ⟨inv, hns⟩ := runOps_inv oracle post (push oracle s) 1
    s.m_fmls.length s.m_asmsf.length
    ((internalize_formulas oracle s).2).m_fmls_head (push_base oracle s)
  rw [show (1 : Nat) + countPush post = countPush post + 1 by omega] at inv
  have hsc : countPush post + 1 ≤ (runOps oracle post (push oracle s)).m_num_scopes := by
    rw [hns, push_num_scopes]
    omega
  obtain ⟨q1, q2, q3⟩ := pop_spec (countPush post + 1) _ _ _ _ inv hsc
  refine ⟨q1, q2, q3, ?_⟩
  intro h
  rw [q3, internalize_formulas_of_covered oracle s h]

theorem push_pop_restore_witness :
    (pop (countPush [Op.assert (Expr.boolConst 1)] + 1)
      (runOps pipeOk [Op.assert (Expr.boolConst 1)] (push pipeOk initState))).m_fmls.length
      = initState.m_fmls.length ∧
    initState.m_fmls_head = initState.m_fmls.length ∧
    (pop (countPush [Op.assert (Expr.boolConst 1)] + 1)
      (runOps pipeOk [Op.assert (Expr.boolConst 1)] (push pipeOk initState))).m_fmls_head
      = initState.m_fmls_head :=
  ⟨(push_pop_restore pipeOk initState [Op.assert (Expr.boolConst 1)]).1,
   by decide,
   (push_pop_restore pipeOk initState [Op.assert (Expr.boolConst 1)]).2.2.2 (by decide)⟩

lemma mkExps_eq (n : Nat) :
    mkExps n = (List.range (max 1 n)).map (fun i => 2 ^ i) := by
  induction n with
  | zero => decide
  | succ n ih =>
      cases n with
      | zero => decide
      | succ m =>
          rw [show mkExps (m + 2) =
              (if (mkExps (m + 1)).length < m + 2
                then mkExps (m + 1) ++ [2 * (mkExps (m + 1)).getLastD 1]
                else mkExps (m + 1)) from rfl, ih]
          have h1 : max 1 (m + 1) = m + 1 := by omega
          have h2 : max 1 (m + 2) = m + 2 := by omega
          rw [h1, h2]
          rw [if_pos (by simp)]
          have hlast : ((List.range (m + 1)).map (fun i => 2 ^ i)).getLastD 1 = 2 ^ m := by
            rw [List.range_succ, List.map_append]
            exact List.getLastD_concat _ _ _
          rw [hlast,
            show List.range (m + 2) = List.range (m + 1) ++ [m + 1] from List.range_succ (m + 1),
            List.map_append]
          congr 1
          simp [pow_succ, Nat.mul_comm]

lemma mkExps_getD (n i : Nat) (h : i < n) : (mkExps n).getD i 0 = 2 ^ i := by
  rw [mkExps_eq, List.getD_eq_getElem?_getD, List.getElem?_map,
    List.getElem?_range (by omega : i < max 1 n)]
  rfl

lemma bvLoop_eq_sum (value : List Lit) (exps : List Nat)
    (hx : ∀ i, i < value.length → exps.getD i 0 = 2 ^ i) :
    ∀ n, n ≤ value.length →
      bvLoop value exps n =
        ∑ i ∈ Finset.range n, if (value.getD i default).sign then 0 else 2 ^ i := by
  intro n
  induction n with
  | zero => intro _; simp [bvLoop]
  | succ n ih =>
      intro h
      rw [bvLoop, Finset.sum_range_succ, ih (by omega), hx n (by omega)]

/-- C4: reassembling a consequence value for an uninterpreted bit-vector
constant yields the equality of the variable with the numeral equal to the
sum of two to the i over exactly the bit positions i whose literal is
positive (unsigned binary in bit order); for an uninterpreted boolean
constant the value is the atom itself when the literal is positive and its
negation when it is negated. -/
theorem internalize_value_correct (value : List Lit) (nm w : Nat) (l : Lit) :
    internalize_value value (.bvConst nm w) =
      some (.eq (.bvConst nm w)
        (.bvNumeral
          (∑ i ∈ Finset.range value.length,
            if (value.getD i default).sign then 0 else 2 ^ i)
          value.length)) ∧
    internalize_value [l] (.boolConst nm) =
      some (if l.sign then .not (.boolConst nm) else .boolConst nm) := by
  constructor
  · have hs := bvLoop_eq_sum value (mkExps value.length)
      (fun i hi => mkExps_getD value.length i hi) value.length le_rfl
    simp [internalize_value, bvValue, hs]
  · rfl

/-- C7: no sequence of push and pop operations modifies the cached model or
the cached unsat core; those caches are check-scoped, not scope-scoped. -/
theorem scope_ops_preserve_model_core (oracle : PipeOracle)
    (ops : List ScopeOp) (s : SolverState) :
    (runScope oracle ops s).m_model = s.m_model ∧
    (runScope oracle ops s).m_core = s.m_core := by
  induction ops generalizing s with
  | nil => exact ⟨rfl, rfl⟩
  | cons op rest ih =>
      cases op with
      | push =>
          obtain ⟨hm, hc⟩ := push_model_core oracle s
          obtain ⟨im, ic⟩ := ih (push oracle s)
          exact ⟨by rw [runScope, im, hm], by rw [runScope, ic, hc]⟩
      | pop n =>
          obtain ⟨hm, hc⟩ := pop_model_core n s
          obtain ⟨im, ic⟩ := ih (pop n s)
          exact ⟨by rw [runScope, im, hm], by rw [runScope, ic, hc]⟩

lemma findLit_isSome (a : Expr) :
    ∀ dep : List (Expr × Lit),
      (findLit a dep).isSome = decide (a ∈ dep.map Prod.fst) := by
  intro dep
  induction dep with
  | nil => simp [findLit]
  | cons p rest ih =>
      obtain ⟨k, l⟩ := p
      by_cases h : k = a
      · simp [findLit, h, ih]
      · simp [findLit, h, ih]
        intro heq
        exact absurd heq.symm h

lemma extractLoop1_fst (dep : List (Expr × Lit)) :
    ∀ (asms : List Expr) (i j : Nat) (w : List Rat),
      (extractLoop1 dep asms i j w).1 = asms.filterMap (fun a => findLit a dep) := by
  intro asms
  induction asms with
  | nil => intro i j w; rfl
  | cons a rest ih =>
      intro i j w
      cases h : findLit a dep with
      | none => simp [extractLoop1, h, ih]
      | some lit => simp [extractLoop1, h, ih]

lemma extractLoop2_eq (dep : List (Expr × Lit)) :
    ∀ standing : List Expr,
      extractLoop2 dep standing = standing.filterMap (fun a => findLit a dep) := by
  intro standing
  induction standing with
  | nil => rfl
  | cons a rest ih =>
      cases h : findLit a dep with
      | none => simp [extractLoop2, h, ih]
      | some lit => simp [extractLoop2, h, ih]

lemma length_filterMap_findLit (dep : List (Expr × Lit)) :
    ∀ l : List Expr,
      (l.filterMap (fun a => findLit a dep)).length
        = (l.filter (fun a => (findLit a dep).isSome)).length := by
  intro l
  induction l with
  | nil => rfl
  | cons a rest ih =>
      cases h : findLit a dep with
      | none => simp [List.filterMap_cons, List.filter_cons, h, ih]
      | some b => simp [List.filterMap_cons, List.filter_cons, h, ih]

lemma length_filter_keys (inputs keys : List Expr) (hnd : inputs.Nodup)
    (hknd : keys.Nodup) (hsub : ∀ k ∈ keys, k ∈ inputs) :
    (inputs.filter (fun a => decide (a ∈ keys))).length = keys.length := by
  apply Nat.le_antisymm
  · apply List.Subperm.length_le
    apply List.subperm_of_subset (hnd.filter _)
    intro x hx
    exact of_decide_eq_true (List.mem_filter.mp hx).2
  · apply List.Subperm.length_le
    apply List.subperm_of_subset hknd
    intro k hk
    exact List.mem_filter.mpr ⟨hsub k hk, decide_eq_true hk⟩

lemma keptIdx_length (dep : List (Expr × Lit)) :
    ∀ (asms : List Expr) (i : Nat),
      (keptIdx dep asms i).length
        = (asms.filterMap (fun a => findLit a dep)).length := by
  intro asms
  induction asms with
  | nil => intro i; rfl
  | cons a rest ih =>
      intro i
      cases h : findLit a dep with
      | none => simp [keptIdx, h, List.filterMap_cons, ih]
      | some l => simp [keptIdx, h, List.filterMap_cons, ih]

lemma getD_eq_of_drop_eq (w worig : List Rat) (j i : Nat) (hji : j ≤ i)
    (h : w.drop j = worig.drop j) : w.getD i 0 = worig.getD i 0 := by
  have hi : i = j + (i - j) := by omega
  rw [List.getD_eq_getElem?_getD, List.getD_eq_getElem?_getD, hi,
    ← List.getElem?_drop w j (i - j), ← List.getElem?_drop worig j (i - j), h]

lemma drop_succ_eq (w worig : List Rat) (j : Nat)
    (h : w.drop j = worig.drop j) : w.drop (j + 1) = worig.drop (j + 1) := by
  calc w.drop (j + 1) = (w.drop j).drop 1 := by
        rw [List.drop_drop]
    _ = (worig.drop j).drop 1 := by rw [h]
    _ = worig.drop (j + 1) := by
        rw [List.drop_drop]

lemma set_drop_succ (w : List Rat) (j : Nat) (x : Rat) :
    (w.set j x).drop (j + 1) = w.drop (j + 1) := by
  induction w generalizing j with
  | nil => simp
  | cons a rest ih =>
      cases j with
      | zero => simp
      | succ j' => simpa using ih j'

lemma set_take_succ (w : List Rat) (j : Nat) (x : Rat) (h : j < w.length) :
    (w.set j x).take (j + 1) = w.take j ++ [x] := by
  induction w generalizing j with
  | nil => simp at h
  | cons a rest ih =>
      cases j with
      | zero => simp
      | succ j' => simp [ih j' (by simpa using h)]

lemma take_succ_getD (w : List Rat) (j : Nat) (h : j < w.length) :
    w.take (j + 1) = w.take j ++ [w.getD j 0] := by
  induction w generalizing j with
  | nil => simp at h
  | cons a rest ih =>
      cases j with
      | zero => simp
      | succ j' => simp [ih j' (by simpa using h)]

lemma extractLoop1_weights (dep : List (Expr × Lit)) :
    ∀ (asms : List Expr) (i j : Nat) (w worig : List Rat),
      j ≤ i → w.length = worig.length → w.drop j = worig.drop j →
      i + asms.length ≤ worig.length →
      (extractLoop1 dep asms i j w).2.2 = j + (keptIdx dep asms i).length ∧
      (extractLoop1 dep asms i j w).2.1.length = w.length ∧
      (extractLoop1 dep asms i j w).2.1.drop (j + (keptIdx dep asms i).length)
        = worig.drop (j + (keptIdx dep asms i).length) ∧
      (extractLoop1 dep asms i j w).2.1.take (j + (keptIdx dep asms i).length)
        = w.take j ++ (keptIdx dep asms i).map (fun t => worig.getD t 0) := by
  intro asms
  induction asms with
  | nil =>
      intro i j w worig hji hlen hdrop hbound
      refine ⟨rfl, rfl, by simpa [keptIdx, extractLoop1] using hdrop, ?_⟩
      simp [keptIdx, extractLoop1]
  | cons a rest ih =>
      intro i j w worig hji hlen hdrop hbound
      have hblt : i < worig.length := by
        simp only [List.length_cons] at hbound
        omega
      cases h : findLit a dep with
      | none =>
          have step := ih (i + 1) j w worig (by omega) hlen hdrop
            (by simp only [List.length_cons] at hbound; omega)
          simpa [extractLoop1, keptIdx, h] using step
      | some lit =>
          have hjlt : j < w.length := by
            rw [hlen]
            omega
          have hkeq : keptIdx dep (a :: rest) i = i :: keptIdx dep rest (i + 1) := by
            simp [keptIdx, h]
          by_cases hij : i = j
          · subst hij
            have hw1take : w.take (i + 1) = w.take i ++ [worig.getD i 0] := by
              rw [take_succ_getD w i hjlt,
                getD_eq_of_drop_eq w worig i i le_rfl hdrop]
            have hw1drop : w.drop (i + 1) = worig.drop (i + 1) :=
              drop_succ_eq _ _ _ hdrop
            obtain ⟨q1, q2, q3, q4⟩ := ih (i + 1) (i + 1) w worig le_rfl hlen
              hw1drop (by simp only [List.length_cons] at hbound; omega)
            have hidx : i + (keptIdx dep (a :: rest) i).length
                = (i + 1) + (keptIdx dep rest (i + 1)).length := by
              rw [hkeq]
              simp
              omega
            refine ⟨?_, ?_, ?_, ?_⟩
            · simp only [extractLoop1, h, ne_eq, not_true_eq_false, false_and,
                if_false, ite_false]
              rw [q1, hidx]
            · simpa [extractLoop1, h] using q2
            · simp only [extractLoop1, h, ne_eq, not_true_eq_false, false_and,
                ite_false]
              rw [hidx]
              exact q3
            · simp only [extractLoop1, h, ne_eq, not_true_eq_false, false_and,
                ite_false]
              rw [hidx, q4, hw1take, hkeq, List.map_cons]
              simp
          · have hwne : ¬w.isEmpty := by
              intro hemp
              rw [List.isEmpty_iff] at hemp
              subst hemp
              simp at hjlt
            have hcond : (i ≠ j ∧ ¬w.isEmpty) := ⟨hij, hwne⟩
            have hw1len : (w.set j (w.getD i 0)).length = w.length :=
              List.length_set w j _
            have hw1take : (w.set j (w.getD i 0)).take (j + 1)
                = w.take j ++ [worig.getD i 0] := by
              rw [set_take_succ w j _ hjlt,
                getD_eq_of_drop_eq w worig j i hji hdrop]
            have hw1drop : (w.set j (w.getD i 0)).drop (j + 1)
                = worig.drop (j + 1) := by
              rw [set_drop_succ]
              exact drop_succ_eq _ _ _ hdrop
            obtain ⟨q1, q2, q3, q4⟩ := ih (i + 1) (j + 1) (w.set j (w.getD i 0))
              worig (by omega) (by rw [hw1len, hlen]) hw1drop
              (by simp only [List.length_cons] at hbound; omega)
            have hidx : j + (keptIdx dep (a :: rest) i).length
                = (j + 1) + (keptIdx dep rest (i + 1)).length := by
              rw [hkeq]
              simp
              omega
            refine ⟨?_, ?_, ?_, ?_⟩
            · simp only [extractLoop1, h, if_pos hcond]
              rw [q1, hidx]
            · simp only [extractLoop1, h, if_pos hcond]
              rw [q2, hw1len]
            · simp only [extractLoop1, h, if_pos hcond]
              rw [hidx]
              exact q3
            · simp only [extractLoop1, h, if_pos hcond]
              rw [hidx, q4, hw1take, hkeq, List.map_cons]
              simp

lemma internalize_assumptions_spec (oracle : PipeOracle) (asms : List Expr)
    (t : SolverState) (na : List (Expr × Nat)) (dep : List (Expr × Lit))
    (h2 : oracle (mkAsmGoal asms t.m_asmsf) = .reduced na dep [])
    (hne : ¬(asms.length = 0 ∧ t.m_asmsf.length = 0)) :
    (internalize_assumptions oracle asms t).1 = Lbool.l_true ∧
    (internalize_assumptions oracle asms t).2.1 = dep ∧
    (internalize_assumptions oracle asms t).2.2.m_asms
      = (extract_assumptions asms dep t.m_asmsf t.m_weights).1 ∧
    (internalize_assumptions oracle asms t).2.2.m_weights
      = (extract_assumptions asms dep t.m_asmsf t.m_weights).2 ∧
    (internalize_assumptions oracle asms t).2.2.m_asmsf = t.m_asmsf ∧
    (internalize_assumptions oracle asms t).2.2.m_core = t.m_core ∧
    (internalize_assumptions oracle asms t).2.2.m_model = t.m_model := by
  have hne' : ¬(asms = [] ∧ t.m_asmsf = []) := by
    simpa [List.length_eq_zero] using hne
  simp [internalize_assumptions, hne', h2, internalize_goal, init_preprocess]

/-- C8: after a successful internalize_assumptions call, m_asms is the
literals of the call-supplied terms found in the dependency map (in input
order) followed by those of the standing assumptions (in input order);
terms the pipeline dropped contribute no literal; the literal count equals
the dependency map's size; and the used prefix of the parallel weights
array is compacted in lockstep, keeping exactly the weights of the
surviving call-supplied terms in order. -/
theorem internalize_assumptions_post (oracle : PipeOracle) (s : SolverState)
    (asms : List Expr) (na : List (Expr × Nat)) (dep : List (Expr × Lit))
    (h2 : oracle (mkAsmGoal asms s.m_asmsf) = .reduced na dep [])
    (hne : ¬(asms.length = 0 ∧ s.m_asmsf.length = 0))
    (hnd : (asms ++ s.m_asmsf).Nodup)
    (hknd : (dep.map Prod.fst).Nodup)
    (hkeys : ∀ p ∈ dep, p.1 ∈ asms ++ s.m_asmsf)
    (hw : s.m_weights.length = asms.length) :
    (internalize_assumptions oracle asms s).1 = Lbool.l_true ∧
    (internalize_assumptions oracle asms s).2.1 = dep ∧
    (internalize_assumptions oracle asms s).2.2.m_asms
      = asms.filterMap (fun a => findLit a dep)
        ++ s.m_asmsf.filterMap (fun a => findLit a dep) ∧
    (internalize_assumptions oracle asms s).2.2.m_asms.length = dep.length ∧
    (internalize_assumptions oracle asms s).2.2.m_weights.take
        (asms.filterMap (fun a => findLit a dep)).length
      = (keptIdx dep asms 0).map (fun t => s.m_weights.getD t 0) := by
  obtain ⟨q1, q2, q3, q4, q5, q6, q7⟩ :=
    internalize_assumptions_spec oracle asms s na dep h2 hne
  have hasv : (extract_assumptions asms dep s.m_asmsf s.m_weights).1
      = asms.filterMap (fun a => findLit a dep)
        ++ s.m_asmsf.filterMap (fun a => findLit a dep) := by
    simp [extract_assumptions, extractLoop1_fst, extractLoop2_eq]
  have hlen : (asms.filterMap (fun a => findLit a dep)
      ++ s.m_asmsf.filterMap (fun a => findLit a dep)).length = dep.length := by
    rw [← List.filterMap_append, length_filterMap_findLit,
      List.filter_congr (fun a _ => findLit_isSome a dep),
      show dep.length = (dep.map Prod.fst).length by simp]
    refine length_filter_keys (asms ++ s.m_asmsf) (dep.map Prod.fst) hnd hknd ?_
    intro k hk
    obtain ⟨p, hp, rfl⟩ := List.mem_map.mp hk
    exact hkeys p hp
  obtain ⟨w1, w2, w3, w4⟩ := extractLoop1_weights dep asms 0 0
    s.m_weights s.m_weights le_rfl rfl rfl (by omega)
  refine ⟨q1, q2, by rw [q3, hasv], by rw [q3, hasv, hlen], ?_⟩
  rw [q4]
  have hwv : (extract_assumptions asms dep s.m_asmsf s.m_weights).2
      = (extractLoop1 dep asms 0 0 s.m_weights).2.1 := rfl
  rw [hwv, ← keptIdx_length dep asms 0]
  simpa using w4

theorem internalize_assumptions_post_witness :
    pipeDep (mkAsmGoal [Expr.boolConst 0, Expr.boolConst 1] wState.m_asmsf)
      = .reduced [] [(Expr.boolConst 0, ⟨3, false⟩)] [] ∧
    (internalize_assumptions pipeDep [Expr.boolConst 0, Expr.boolConst 1] wState).1
      = Lbool.l_true ∧
    (internalize_assumptions pipeDep [Expr.boolConst 0, Expr.boolConst 1]
      wState).2.2.m_asms.length = 1 ∧
    (internalize_assumptions pipeDep [Expr.boolConst 0, Expr.boolConst 1]
      wState).2.2.m_weights.take
        ([Expr.boolConst 0, Expr.boolConst 1].filterMap
          (fun a => findLit a [(Expr.boolConst 0, ⟨3, false⟩)])).length
      = (keptIdx [(Expr.boolConst 0, ⟨3, false⟩)]
          [Expr.boolConst 0, Expr.boolConst 1] 0).map
          (fun t => wState.m_weights.getD t 0) := by
  have h := internalize_assumptions_post pipeDep wState
    [Expr.boolConst 0, Expr.boolConst 1] [] [(Expr.boolConst 0, ⟨3, false⟩)]
    (by decide) (by decide) (by decide) (by decide) (by decide) (by decide)
  exact ⟨by decide, h.1, by rw [h.2.2.2.1]; rfl, h.2.2.2.2⟩

lemma lookupIdx_isSome_of_mem (idx : Nat) (e : Expr) :
    ∀ a2d : List (Nat × Expr), (idx, e) ∈ a2d → (lookupIdx idx a2d).isSome := by
  intro a2d
  induction a2d with
  | nil =>
      intro h
      simp at h
  | cons p rest ih =>
      intro h
      obtain ⟨k, v⟩ := p
      by_cases hk : k = idx
      · simp [lookupIdx, hk]
      · rcases List.mem_cons.mp h with h1 | h1
        · injection h1 with hA hB
          exact absurd hA.symm hk
        · simpa [lookupIdx, hk] using ih h1

lemma lookupIdx_mem (idx : Nat) (e : Expr) :
    ∀ a2d : List (Nat × Expr), lookupIdx idx a2d = some e → (idx, e) ∈ a2d := by
  intro a2d
  induction a2d with
  | nil =>
      intro h
      simp [lookupIdx] at h
  | cons p rest ih =>
      obtain ⟨k, v⟩ := p
      intro h
      by_cases hk : k = idx
      · simp [lookupIdx, hk] at h
        subst hk
        subst h
        exact List.mem_cons_self _ _
      · simp [lookupIdx, hk] at h
        exact List.mem_cons_of_mem _ (ih h)

lemma coreLoop_eq (a2d : List (Nat × Expr)) :
    ∀ core : List Lit, (∀ l ∈ core, (lookupIdx l.index a2d).isSome) →
      coreLoop a2d core
        = some (core.filterMap (fun l => lookupIdx l.index a2d)) := by
  intro core
  induction core with
  | nil => intro _; rfl
  | cons l rest ih =>
      intro h
      obtain ⟨e, he⟩ := Option.isSome_iff_exists.mp (h l (List.mem_cons_self _ _))
      have ht := ih (fun x hx => h x (List.mem_cons_of_mem _ hx))
      simp [coreLoop, he, ht, List.filterMap_cons]

/-- C5: for a check whose engine answer is unsatisfiable and whose
assumption literal set is non-empty, the call completes without the fatal
lookup failure (every engine core literal is found in the inverted
dependency map, given the engine contract that its core only uses literals
it was handed), the previous core is discarded and replaced wholesale by
the terms looked up from the engine core, and every term of the new core
lies in the domain of the dependency map built for that call, which is
contained in the union of the call-supplied assumptions and the standing
assumption set. -/
theorem check_sat_core_sound (oracle : PipeOracle) (s : SolverState)
    (asms : List Expr) (engineCore : List Lit) (mdl : List Lbool)
    (na : List (Expr × Nat)) (dep : List (Expr × Lit))
    (h1 : (internalize_formulas oracle
      { s with m_weights := [], m_model := none }).1 = Lbool.l_true)
    (h2 : oracle (mkAsmGoal asms s.m_asmsf) = .reduced na dep [])
    (h3 : dep ≠ [])
    (h4 : ∀ p ∈ dep, p.1 ∈ asms ++ s.m_asmsf)
    (h5 : ∀ l ∈ engineCore, ∃ p ∈ dep, p.2 = l) :
    ∃ s', check_sat oracle ⟨Lbool.l_false, engineCore, mdl⟩ asms none s
        = some (Lbool.l_false, s') ∧
      s'.m_core
        = engineCore.filterMap (fun l => lookupIdx l.index (asm2dep dep)) ∧
      (∀ e ∈ s'.m_core, e ∈ dep.map Prod.fst ∧ e ∈ asms ++ s.m_asmsf) := by
  obtain ⟨p0, hp0⟩ := List.exists_mem_of_ne_nil dep h3
  set s1 : SolverState := { s with m_weights := [], m_model := none } with hs1
  obtain ⟨f1, f2, f3, f4, f5, f6, f7, f8, f9, f10⟩ :=
    internalize_formulas_frame oracle s1
  set t := (internalize_formulas oracle s1).2 with htEq
  have htasm : t.m_asmsf = s.m_asmsf := by
    rw [f2, hs1]
  have h2t : oracle (mkAsmGoal asms t.m_asmsf) = .reduced na dep [] := by
    rw [htasm]
    exact h2
  have hnet : ¬(asms.length = 0 ∧ t.m_asmsf.length = 0) := by
    rintro ⟨ha, hb⟩
    rw [htasm] at hb
    have ha' : asms = [] := List.length_eq_zero.mp ha
    have hb' : s.m_asmsf = [] := List.length_eq_zero.mp hb
    have hm := h4 p0 hp0
    rw [ha', hb'] at hm
    simp at hm
  obtain ⟨q1, q2, q3, q4, q5, q6, q7⟩ :=
    internalize_assumptions_spec oracle asms t na dep h2t hnet
  set P := internalize_assumptions oracle asms t with hPEq
  have hfm : (findLit p0.1 dep).isSome := by
    rw [findLit_isSome]
    exact decide_eq_true (List.mem_map.mpr ⟨p0, hp0, rfl⟩)
  obtain ⟨plit, hplit⟩ := Option.isSome_iff_exists.mp hfm
  have hasv : P.2.2.m_asms
      = asms.filterMap (fun a => findLit a dep)
        ++ t.m_asmsf.filterMap (fun a => findLit a dep) := by
    rw [q3]
    simp [extract_assumptions, extractLoop1_fst, extractLoop2_eq]
  have hnonempty : P.2.2.m_asms ≠ [] := by
    rw [hasv]
    intro hemp
    rw [List.append_eq_nil] at hemp
    rcases List.mem_append.mp (h4 p0 hp0) with hm | hm
    · have hin : plit ∈ asms.filterMap (fun a => findLit a dep) :=
        List.mem_filterMap.mpr ⟨p0.1, hm, hplit⟩
      rw [hemp.1] at hin
      simp at hin
    · have hin : plit ∈ t.m_asmsf.filterMap (fun a => findLit a dep) :=
        List.mem_filterMap.mpr ⟨p0.1, by rw [htasm]; exact hm, hplit⟩
      rw [hemp.2] at hin
      simp at hin
  have hlook : ∀ l ∈ engineCore, (lookupIdx l.index (asm2dep dep)).isSome := by
    intro l hl
    obtain ⟨p, hp, hpe⟩ := h5 l hl
    apply lookupIdx_isSome_of_mem l.index p.1
    unfold asm2dep
    exact List.mem_map.mpr ⟨p, hp, by rw [hpe]⟩
  have hcl := coreLoop_eq (asm2dep dep) engineCore hlook
  refine ⟨{ P.2.2 with
    m_core := engineCore.filterMap (fun l => lookupIdx l.index (asm2dep dep)) },
    ?_, rfl, ?_⟩
  · simp only [check_sat, Option.getD_none]
    rw [← hs1, ← htEq, ← hPEq]
    rw [if_neg (by simp [h1]), if_neg (by simp [q1]), if_pos hnonempty]
    rw [extract_core, q2, hcl]
  · intro e he
    simp only [List.mem_filterMap] at he
    obtain ⟨l, hl, hle⟩ := he
    have hmem := lookupIdx_mem l.index e (asm2dep dep) hle
    unfold asm2dep at hmem
    obtain ⟨p, hp, hpe⟩ := List.mem_map.mp hmem
    injection hpe with hA hB
    subst hB
    exact ⟨List.mem_map.mpr ⟨p, hp, rfl⟩, h4 p hp⟩

theorem check_sat_core_sound_witness :
    ((internalize_formulas pipeDep
        { initState with m_weights := [], m_model := none }).1 = Lbool.l_true ∧
      ([(Expr.boolConst 0, (⟨3, false⟩ : Lit))] : List (Expr × Lit)) ≠ []) ∧
    (∃ s', check_sat pipeDep ⟨Lbool.l_false, [⟨3, false⟩], []⟩
        [Expr.boolConst 0] none initState = some (Lbool.l_false, s') ∧
      s'.m_core = ([⟨3, false⟩] : List Lit).filterMap
        (fun l => lookupIdx l.index
          (asm2dep [(Expr.boolConst 0, ⟨3, false⟩)])) ∧
      (∀ e ∈ s'.m_core,
        e ∈ ([(Expr.boolConst 0, (⟨3, false⟩ : Lit))]).map Prod.fst ∧
        e ∈ [Expr.boolConst 0] ++ initState.m_asmsf)) :=
  ⟨⟨by decide, by decide⟩,
    check_sat_core_sound pipeDep initState [Expr.boolConst 0] [⟨3, false⟩] []
      [] [(Expr.boolConst 0, ⟨3, false⟩)]
      (by decide) (by decide) (by decide) (by decide) (by decide)⟩

end IncSat
